import Mathlib

/-!
Verification of the lua-linear core (vector/matrix views over shared buffers,
view algebra, generic dispatch, parameter validation, refcounting).

Modelling conventions, matching `src/src/linear_core.c` and the split files
`linear_elementary.c`, `linear_unary.c`, `linear_binary.c`, `linear_program.c`:

* Buffer storage is a total map `Nat → ℚ` from cell index to value; a C
  double is modelled as an exact rational since every kernel treated here is
  plain field arithmetic.  A write is `Function.update`.
* A vector view (`struct linear_vector`) is `{off, length, inc}`: `off` is the
  distance of the `values` pointer from the start of the data block, so the
  1-based element `i` lives at cell `off + (i-1)*inc`.
* A matrix view (`struct linear_matrix`) is `{off, rows, cols, ld, rowmajor}`;
  the logical element `(r, c)` (0-based) lives at cell `off + r*ld + c` in
  row-major order and `off + c*ld + r` in column-major order.
* Lua errors (`luaL_argcheck`, `luaL_error`) abort the call; functions that
  can fail return `Except String _`, or a pair `Option String × state` when a
  claim is about the state observable after a failure.
* Lua 1-based indices arrive as `size_t` in the C code (`luaL_checkinteger`
  cast to `size_t`); a negative Lua integer wraps to a huge unsigned value and
  therefore fails the same `index >= 1 && index <= length` test as `0` or a
  too-large index do.  We model indices as `Nat`, where `i = 0` stands for any
  wrapped/non-positive input.
-/

namespace LuaLinear

/-- Buffer storage: the flat block of doubles owned by a `linear_data` block. -/
abbrev Buf : Type := Nat → ℚ

/-- `struct linear_vector`: length, increment, and offset of the `values`
pointer into the shared data block. -/
structure Vec where
  off : Nat
  length : Nat
  inc : Nat
  deriving Repr, DecidableEq

/-- Cell index of the 1-based element `i` of a vector view:
`x->values[(i - 1) * x->inc]`. -/
def Vec.addr (v : Vec) (i : Nat) : Nat := v.off + (i - 1) * v.inc

/-- `struct linear_matrix`: rows, columns, leading dimension, order, and the
offset of the `values` pointer into the shared data block. -/
structure Mat where
  off : Nat
  rows : Nat
  cols : Nat
  ld : Nat
  rowmajor : Bool
  deriving Repr, DecidableEq

/-- Major extent: rows if row-major, else columns (outer loop bound). -/
def Mat.major (X : Mat) : Nat := if X.rowmajor then X.rows else X.cols

/-- Minor extent: columns if row-major, else rows (inner, unit-stride bound). -/
def Mat.minor (X : Mat) : Nat := if X.rowmajor then X.cols else X.rows

/-- Cell index of the logical element `(r, c)` (0-based): `r*ld + c` from the
`values` pointer in row-major order, `c*ld + r` in column-major order. -/
def Mat.cell (X : Mat) (r c : Nat) : Nat :=
  X.off + (if X.rowmajor then r * X.ld + c else c * X.ld + r)

/-- Logical read of matrix element `(r, c)` from buffer `b`. -/
def logRead (b : Buf) (X : Mat) (r c : Nat) : ℚ := b (X.cell r c)

/-- `linear_vector_index`: reading `x[i]` yields the value at
`(i-1)*inc` when `1 <= i <= length`, and nil (`none`) otherwise. -/
def vector_index (b : Buf) (v : Vec) (i : Nat) : Option ℚ :=
  if 1 ≤ i ∧ i ≤ v.length then some (b (v.addr i)) else none

/-- `linear_vector_newindex`: writing `x[i] = q` stores at `(i-1)*inc` when
`1 <= i <= length` and raises the argument error "bad index" otherwise,
leaving the buffer untouched. -/
def vector_newindex (b : Buf) (v : Vec) (i : Nat) (q : ℚ) : Option String × Buf :=
  if 1 ≤ i ∧ i ≤ v.length then (none, Function.update b (v.addr i) q)
  else (some "bad index", b)

/-- `linear_matrix_index`: `X[i]` returns a vector view over the `i`-th major
slice (row if row-major, column if column-major) sharing the data block, or
nil (`none`) when the major index is out of range. -/
def matrix_index (X : Mat) (i : Nat) : Option Vec :=
  if X.rowmajor then
    if 1 ≤ i ∧ i ≤ X.rows then some ⟨X.off + (i - 1) * X.ld, X.cols, 1⟩ else none
  else
    if 1 ≤ i ∧ i ≤ X.cols then some ⟨X.off + (i - 1) * X.ld, X.rows, 1⟩ else none

/-- `linear_sub` on a vector: bounds-check `start` and `end` against the
parent view, then derive a view with the same increment whose values pointer
is advanced by `(start-1)*inc`; no element is copied. -/
def linear_sub_vector (v : Vec) (start stop : Nat) : Except String Vec :=
  if 1 ≤ start ∧ start ≤ v.length then
    if start ≤ stop ∧ stop ≤ v.length then
      .ok ⟨v.off + (start - 1) * v.inc, stop - start + 1, v.inc⟩
    else .error "bad index"
  else .error "bad index"

/-! ### View algebra: `linear_unwind` / `linear_reshape`

Both walk the destination/source vector with a running cursor `w` (number of
elements consumed so far; the C code keeps the pointer `d = values + w*inc`
and `last = values + length*inc`).  While `d < last` the next stack slot is
fetched: if it is not a matrix, `luaL_checkudata` raises; otherwise
`luaL_argcheck(d + rows*cols*inc <= last, "matrix too large")` and then the
matrix is copied element by element in traversal order.  Arguments past the
point where the cursor reaches `last` are never examined. -/

/-- Sequential copy: write the values at the given cell addresses, first
address first (the order of the C copy loops). -/
def writeCells (b : Buf) : List Nat → List ℚ → Buf
  | a :: as, q :: qs => writeCells (Function.update b a q) as qs
  | _, _ => b

/-- Read the values at the given cell addresses, in order. -/
def readCells (b : Buf) (addrs : List Nat) : List ℚ := addrs.map b

/-- Cell addresses of vector elements `w, w+1, ..., w+n-1` (0-based). -/
def vecAddrs (v : Vec) (w n : Nat) : List Nat :=
  (List.range n).map fun k => v.off + (w + k) * v.inc

/-- Cell addresses of a matrix in its traversal order: the outer loop runs
over major slices `i`, the inner loop over `j < minor` at `values[i*ld + j]`
(`linear_unwind` / `linear_reshape` copy loops, both orders). -/
def matAddrs (X : Mat) : List Nat :=
  (List.range X.major).flatMap fun i =>
    (List.range X.minor).map fun j => X.off + i * X.ld + j

/-- Matrices are passed with their own data blocks (as created by
`linear.matrix`): each entry pairs the view with its buffer. -/
abbrev MatBuf : Type := Mat × Buf

/-- `linear_unwind` loop: copy matrix elements into the vector `x` starting
at element cursor `w`; returns the error (if any) and the vector buffer as it
stands when the call returns. -/
def unwindRun (x : Vec) : List MatBuf → Buf → Nat → Option String × Buf
  | ms, bx, w =>
    if w < x.length then
      match ms with
      | [] => (some "matrix expected, got no value", bx)
      | (X, bX) :: rest =>
        if w + X.rows * X.cols ≤ x.length then
          unwindRun x rest
            (writeCells bx (vecAddrs x w (X.rows * X.cols)) (readCells bX (matAddrs X)))
            (w + X.rows * X.cols)
        else (some "matrix too large", bx)
    else (none, bx)

/-- `linear_reshape` loop: distribute the elements of `x` (from cursor `w`)
into the matrices in traversal order; returns the error (if any) and the
matrix list with the buffers as they stand when the call returns. -/
def reshapeRun (x : Vec) (bx : Buf) : List MatBuf → Nat → Option String × List MatBuf
  | ms, w =>
    if w < x.length then
      match ms with
      | [] => (some "matrix expected, got no value", [])
      | (X, bX) :: rest =>
        if w + X.rows * X.cols ≤ x.length then
          let bX' := writeCells bX (matAddrs X) (readCells bx (vecAddrs x w (X.rows * X.cols)))
          let res := reshapeRun x bx rest (w + X.rows * X.cols)
          (res.fst, (X, bX') :: res.snd)
        else (some "matrix too large", (X, bX) :: rest)
    else (none, ms)

/-! ### Dispatch engine -/

/-- `INT_MAX` bound appearing in the contiguous-fast-path tests. -/
def INTMAX : Nat := 2 ^ 31 - 1

/-- One kernel invocation `f(n, p, 1)` of a per-element kernel `g` over the
contiguous cells `s, ..., s+n-1`: each cell in the range is mapped through
`g`, all others are untouched. -/
def applyRange (g : ℚ → ℚ) (b : Buf) (s n : Nat) : Buf :=
  fun a => if s ≤ a ∧ a < s + n then g (b a) else b a

/-- `linear_elementary`, matrix branch: if the leading dimension equals the
minor extent (and the product fits an int), one contiguous call over
`rows*cols` cells; otherwise one unit-stride call per major slice. -/
def elementaryMat (g : ℚ → ℚ) (X : Mat) (b : Buf) : Buf :=
  if X.minor = X.ld ∧ X.major * X.minor ≤ INTMAX then
    applyRange g b X.off (X.major * X.minor)
  else
    (List.range X.major).foldl (fun acc i => applyRange g acc (X.off + i * X.ld) X.minor) b

/-- Reference per-major-slice strided loop (the non-fast-path branch of
`linear_elementary`), used to state that the fast path agrees with it. -/
def elementaryMatLoop (g : ℚ → ℚ) (X : Mat) (b : Buf) : Buf :=
  (List.range X.major).foldl (fun acc i => applyRange g acc (X.off + i * X.ld) X.minor) b

/-- The strided value list a kernel call `f(n, p + s, inc)` observes. -/
def readStride (b : Buf) (s inc n : Nat) : List ℚ :=
  (List.range n).map fun k => b (s + k * inc)

/-- `linear_unary`, matrix branch: check that the output vector length equals
the requested-order major extent, then reduce each requested-order slice into
`y`.  When the physical order matches the request the slice is contiguous
(`f(minor, &values[i*ld], 1)`); otherwise it is strided
(`f(minor', &values[i], ld)`). -/
def unaryMat (f : List ℚ → ℚ) (X : Mat) (bX : Buf) (y : Vec) (byb : Buf)
    (reqRow : Bool) : Except String Buf :=
  if reqRow then
    if y.length = X.rows then
      .ok <|
        if X.rowmajor then
          (List.range X.rows).foldl (fun acc i =>
            Function.update acc (y.off + i * y.inc)
              (f (readStride bX (X.off + i * X.ld) 1 X.cols))) byb
        else
          (List.range X.rows).foldl (fun acc i =>
            Function.update acc (y.off + i * y.inc)
              (f (readStride bX (X.off + i) X.ld X.cols))) byb
    else .error "dimension mismatch"
  else
    if y.length = X.cols then
      .ok <|
        if X.rowmajor = false then
          (List.range X.cols).foldl (fun acc i =>
            Function.update acc (y.off + i * y.inc)
              (f (readStride bX (X.off + i * X.ld) 1 X.rows))) byb
        else
          (List.range X.cols).foldl (fun acc i =>
            Function.update acc (y.off + i * y.inc)
              (f (readStride bX (X.off + i) X.ld X.rows))) byb
    else .error "dimension mismatch"

/-- One binary kernel invocation `f(n, px, 1, py, 1)` of an elementwise kernel
`k`: destination cells `sy, ..., sy+n-1` are combined with the corresponding
source cells `sx, ...`; all other destination cells are untouched. -/
def applyRange2 (k : ℚ → ℚ → ℚ) (bx : Buf) (sx : Nat) (by_ : Buf) (sy n : Nat) : Buf :=
  fun a => if sy ≤ a ∧ a < sy + n then k (bx (sx + (a - sy))) (by_ a) else by_ a

/-- `linear_binary`, matrix-matrix branch: require equal order, then equal
shape (argument errors raised before anything is read or written), then either
one contiguous call over `rows*cols` cells (both leading dimensions packed)
or one unit-stride call per major slice.  The kernel writes the second
operand; the first is only read.  Returns the error (if any) and the second
operand's buffer as the call leaves it. -/
def binaryMM (k : ℚ → ℚ → ℚ) (X : Mat) (bX : Buf) (Y : Mat) (bY : Buf) :
    Option String × Buf :=
  if X.rowmajor ≠ Y.rowmajor then (some "order mismatch", bY)
  else if ¬(X.rows = Y.rows ∧ X.cols = Y.cols) then (some "dimension mismatch", bY)
  else
    (none,
      if X.ld = X.minor ∧ Y.ld = Y.minor ∧ X.major * X.minor ≤ INTMAX then
        applyRange2 k bX X.off bY Y.off (X.major * X.minor)
      else
        (List.range X.major).foldl (fun acc i =>
          applyRange2 k bX (X.off + i * X.ld) acc (Y.off + i * Y.ld) X.minor) bY)

/-! ### Parameter resolver and the `var` reduction -/

/-- `linear_var_handler` on the value sequence a kernel call observes (both
the `incx == 1` and the strided branch of the C handler compute the very same
sums over the same values, in the same order): one pass summing the values,
`mean = sum / size`, a second pass summing squared deviations, and a final
division by `size - ddof` (a `size_t` subtraction, in range whenever the
`ddof` check below has passed). -/
def linear_var_handler (xs : List ℚ) (ddof : Nat) : ℚ :=
  let sum := xs.foldl (fun acc v => acc + v) 0
  let mean := sum / (xs.length : ℚ)
  let sum2 := xs.foldl (fun acc v => acc + (v - mean) * (v - mean)) 0
  sum2 / ((xs.length - ddof : Nat) : ℚ)

/-- `linear_var` = `linear_unary` on a vector with the `ddof` descriptor:
`linear_checkargs` resolves the `'d'` parameter and enforces
`luaL_argcheck(L, args->d < size, index, "bad ddof")` (a non-negative integer
smaller than the operand length; a negative Lua integer wraps to a huge
`size_t` and fails the same check), then the handler runs on the vector's
values `xs`. -/
def linear_var (xs : List ℚ) (ddof : Nat) : Except String ℚ :=
  if ddof < xs.length then .ok (linear_var_handler xs ddof) else .error "bad ddof"

/-! ### Program functions: LAPACK status handling

The external library (`LAPACKE_dgesv`, `LAPACKE_dgetrf`, `LAPACKE_dgetri`) is
out of scope; its integer return status and, for `det`, the LU factor and
pivot array it would produce are parameters of the models. -/

/-- `linear_gesv` after the shape checks: a negative solver status raises
"internal error"; otherwise the pushed result is the boolean `status == 0`
(`false` for the positive, singular-matrix status). -/
def linear_gesv_status (status : Int) : Except String Bool :=
  if status < 0 then .error "internal error" else .ok (status = 0)

/-- `linear_inv` after the shape check, as a function of the `dgetrf` status
`r1` and the `dgetri` status `r2`: a nonzero `r1` short-circuits (negative →
"internal error", positive → `false`, the singular case); otherwise `r2 < 0`
raises "internal error" and the result is `r2 == 0`. -/
def linear_inv_status (r1 r2 : Int) : Except String Bool :=
  if r1 ≠ 0 then
    if r1 < 0 then .error "internal error" else .ok false
  else if r2 < 0 then .error "internal error" else .ok (r2 = 0)

/-- The determinant `linear_det` computes from a successful LU factorization
of the `n × n` copy (stored with leading dimension `n`): the product of the
diagonal of the factor, negated once per pivot row `ipiv[i] != i + 1`. -/
def detFromLU (n : Nat) (lu : Nat → ℚ) (ipiv : Nat → Int) : ℚ :=
  let det := (List.range n).foldl (fun acc i => acc * lu (i * n + i)) 1
  let neg := (List.range n).foldl (fun acc i => if ipiv i ≠ (i : Int) + 1 then !acc else acc) false
  if neg then -det else det

/-- `linear_det` after the shape check, as a function of the `dgetrf` status
and the factor/pivots it would produce: nonzero status short-circuits
(negative → "internal error", positive → the number `0.0`); on status `0` the
determinant is computed from the factor. -/
def linear_det_status (n : Nat) (status : Int) (lu : Nat → ℚ) (ipiv : Nat → Int) :
    Except String ℚ :=
  if status ≠ 0 then
    if status < 0 then .error "internal error" else .ok 0
  else .ok (detFromLU n lu ipiv)

/-! ### Buffer reference counting

`linear_create_vector` / `linear_create_matrix` allocate a `linear_data`
block with `refs = 1` and hand it to the owning view; `linear_push_vector` /
`linear_push_matrix` (used by `sub`, row/column extraction, `tvector`,
iteration) do `data->refs++`; the `__gc` metamethods do `data->refs--` and
`free(data)` when the count reaches zero.  The stored values are untouched by
all of these. -/

/-- State of one `linear_data` block: reference count, whether `free` has
been called, and the stored values (which refcounting never changes). -/
structure DataState where
  refs : Nat
  freed : Bool
  store : Buf

/-- A refcount-relevant event: deriving one more view of the block, or
collecting one view. -/
inductive RefOp where
  | derive
  | destroy

/-- `linear_push_vector`/`linear_push_matrix` (`data->refs++`) and the `__gc`
metamethods (`data->refs--; if (refs == 0) free(data)`). -/
def refStep (s : DataState) : RefOp → DataState
  | .derive => { s with refs := s.refs + 1 }
  | .destroy => { s with refs := s.refs - 1, freed := s.freed || (s.refs - 1 == 0) }

/-- A freshly constructed block: `data->refs = 1`, owned by the constructor's
view, storage `b`. -/
def createData (b : Buf) : DataState := ⟨1, false, b⟩

/-- Run a sequence of view derivations/destructions against a block. -/
def runRefOps (ops : List RefOp) (s : DataState) : DataState := ops.foldl refStep s

/-! ### Basic access lemmas -/

theorem vector_index_pos (b : Buf) (v : Vec) (i : Nat) (h : 1 ≤ i ∧ i ≤ v.length) :
    vector_index b v i = some (b (v.addr i)) := by
  unfold vector_index; rw [if_pos h]

theorem vector_index_neg (b : Buf) (v : Vec) (i : Nat) (h : ¬(1 ≤ i ∧ i ≤ v.length)) :
    vector_index b v i = none := by
  unfold vector_index; rw [if_neg h]

theorem vector_newindex_pos (b : Buf) (v : Vec) (i : Nat) (q : ℚ) (h : 1 ≤ i ∧ i ≤ v.length) :
    vector_newindex b v i q = (none, Function.update b (v.addr i) q) := by
  unfold vector_newindex; rw [if_pos h]

theorem vector_newindex_neg (b : Buf) (v : Vec) (i : Nat) (q : ℚ) (h : ¬(1 ≤ i ∧ i ≤ v.length)) :
    vector_newindex b v i q = (some "bad index", b) := by
  unfold vector_newindex; rw [if_neg h]

/-- **C1.** For every vector view `v` and valid 1-based `start ≤ stop ≤ length`,
`sub(v, start, stop)` returns a view of length `stop - start + 1` over the
same buffer (only stride/offset arithmetic, no copying): on any shared buffer
`b`, writing element `i` of the derived view is the very same buffer update
as writing element `start - 1 + i` of `v`, reading agrees likewise, and a
write through either view is read back through the other. -/
theorem sub_aliasing_roundtrip (v : Vec) (start stop : Nat)
    (h1 : 1 ≤ start) (h2 : start ≤ stop) (h3 : stop ≤ v.length) :
    ∃ w, linear_sub_vector v start stop = .ok w ∧ w.length = stop - start + 1 ∧
      w.inc = v.inc ∧
      ∀ b i a, 1 ≤ i → i ≤ stop - start + 1 →
        vector_newindex b w i a = vector_newindex b v (start - 1 + i) a ∧
        vector_index b w i = vector_index b v (start - 1 + i) ∧
        vector_index (vector_newindex b w i a).snd v (start - 1 + i) = some a ∧
        vector_index (vector_newindex b v (start - 1 + i) a).snd w i = some a := by
  have hsl : start ≤ v.length := le_trans h2 h3
  refine ⟨⟨v.off + (start - 1) * v.inc, stop - start + 1, v.inc⟩, ?_, rfl, rfl, ?_⟩
  · unfold linear_sub_vector
    rw [if_pos ⟨h1, hsl⟩, if_pos ⟨h2, h3⟩]
  · intro b i a hi1 hi2
    have haddr : Vec.addr ⟨v.off + (start - 1) * v.inc, stop - start + 1, v.inc⟩ i
        = v.addr (start - 1 + i) := by
      show v.off + (start - 1) * v.inc + (i - 1) * v.inc = v.off + (start - 1 + i - 1) * v.inc
      rw [Nat.add_assoc, ← Nat.add_mul]
      congr 2
      omega
    have hcw : 1 ≤ i ∧ i ≤ Vec.length ⟨v.off + (start - 1) * v.inc, stop - start + 1, v.inc⟩ :=
      ⟨hi1, hi2⟩
    have hcv : 1 ≤ start - 1 + i ∧ start - 1 + i ≤ v.length := by
      constructor <;> omega
    refine ⟨?_, ?_, ?_, ?_⟩
    · rw [vector_newindex_pos _ _ _ _ hcw, vector_newindex_pos _ _ _ _ hcv, haddr]
    · rw [vector_index_pos _ _ _ hcw, vector_index_pos _ _ _ hcv, haddr]
    · rw [vector_newindex_pos _ _ _ _ hcw, vector_index_pos _ _ _ hcv, haddr]
      simp
    · rw [vector_newindex_pos _ _ _ _ hcv, vector_index_pos _ _ _ hcw, haddr]
      simp

/-- Witness for `sub_aliasing_roundtrip` at `v = ⟨0, 5, 1⟩`, `start = 2`,
`stop = 4`. -/
theorem sub_aliasing_roundtrip_witness :
    (1 ≤ 2 ∧ 2 ≤ 4 ∧ 4 ≤ (⟨0, 5, 1⟩ : Vec).length) ∧
      ∃ w, linear_sub_vector ⟨0, 5, 1⟩ 2 4 = .ok w ∧ w.length = 4 - 2 + 1 ∧
        w.inc = (⟨0, 5, 1⟩ : Vec).inc ∧
        ∀ b i a, 1 ≤ i → i ≤ 4 - 2 + 1 →
          vector_newindex b w i a = vector_newindex b ⟨0, 5, 1⟩ (2 - 1 + i) a ∧
          vector_index b w i = vector_index b ⟨0, 5, 1⟩ (2 - 1 + i) ∧
          vector_index (vector_newindex b w i a).snd ⟨0, 5, 1⟩ (2 - 1 + i) = some a ∧
          vector_index (vector_newindex b ⟨0, 5, 1⟩ (2 - 1 + i) a).snd w i = some a :=
  ⟨⟨by decide, by decide, by decide⟩,
    sub_aliasing_roundtrip ⟨0, 5, 1⟩ 2 4 (by decide) (by decide) (by decide)⟩

/-- **C10.** Asymmetric bounds behaviour of indexed access: an out-of-range
read `x[i]` yields nil, an out-of-range write `x[i] = q` raises the argument
error "bad index" leaving the buffer untouched, and an out-of-range major
index on a matrix yields nil as well. -/
theorem index_bounds_asymmetry (b : Buf) (v : Vec) (X : Mat) (i j : Nat) (q : ℚ)
    (hv : i < 1 ∨ v.length < i) (hX : j < 1 ∨ X.major < j) :
    vector_index b v i = none ∧
    vector_newindex b v i q = (some "bad index", b) ∧
    matrix_index X j = none := by
  have hv' : ¬(1 ≤ i ∧ i ≤ v.length) := by omega
  refine ⟨vector_index_neg _ _ _ hv', vector_newindex_neg _ _ _ _ hv', ?_⟩
  unfold matrix_index
  rcases hR : X.rowmajor with _ | _
  · have hj : ¬(1 ≤ j ∧ j ≤ X.cols) := by
      simp only [Mat.major, hR] at hX
      simp only [Bool.false_eq_true, if_false] at hX
      omega
    simp [hR, hj]
  · have hj : ¬(1 ≤ j ∧ j ≤ X.rows) := by
      simp only [Mat.major, hR] at hX
      simp only [if_true] at hX
      omega
    simp [hR, hj]

/-- Witness for `index_bounds_asymmetry` at a length-2 vector, index 3, and a
2×2 row-major matrix, major index 0. -/
theorem index_bounds_asymmetry_witness :
    ((3 : Nat) < 1 ∨ (⟨0, 2, 1⟩ : Vec).length < 3) ∧
      ((0 : Nat) < 1 ∨ (⟨0, 2, 2, 2, true⟩ : Mat).major < 0) ∧
      (vector_index (fun _ => 0) ⟨0, 2, 1⟩ 3 = none ∧
        vector_newindex (fun _ => 0) ⟨0, 2, 1⟩ 3 7 = (some "bad index", fun _ => 0) ∧
        matrix_index ⟨0, 2, 2, 2, true⟩ 0 = none) :=
  ⟨by decide, by decide,
    index_bounds_asymmetry (fun _ => 0) ⟨0, 2, 1⟩ ⟨0, 2, 2, 2, true⟩ 3 0 7
      (by decide) (by decide)⟩

/-! ### Fold lemmas for the reduction kernels -/

theorem foldl_add_eq_sum (xs : List ℚ) (init : ℚ) :
    xs.foldl (fun acc r => acc + r) init = init + xs.sum := by
  induction xs generalizing init with
  | nil => simp
  | cons x xs ih => simp [List.foldl_cons, ih, add_assoc]

theorem foldl_add_map_eq_sum (f : ℚ → ℚ) (xs : List ℚ) (init : ℚ) :
    xs.foldl (fun acc r => acc + f r) init = init + (xs.map f).sum := by
  induction xs generalizing init with
  | nil => simp
  | cons x xs ih => simp [List.foldl_cons, ih, add_assoc]

/-- **C4.** With `0 ≤ d < n`, `var(x, d)` is exactly
`Σᵢ (xᵢ - mean)² / (n - d)` with `mean = Σᵢ xᵢ / n`; with `d ≥ n` the call
fails with the range error "bad ddof" and returns no value. -/
theorem var_ddof (xs : List ℚ) (d : Nat) :
    (d < xs.length →
      linear_var xs d =
        .ok ((xs.map fun r => (r - xs.sum / (xs.length : ℚ)) ^ 2).sum
          / ((xs.length : ℚ) - (d : ℚ)))) ∧
    (xs.length ≤ d → linear_var xs d = .error "bad ddof") := by
  constructor
  · intro hd
    have h2 : ∀ m : ℚ, xs.foldl (fun acc v => acc + (v - m) * (v - m)) 0
        = (xs.map fun r => (r - m) ^ 2).sum := by
      intro m
      rw [show (fun (acc v : ℚ) => acc + (v - m) * (v - m))
            = fun acc v => acc + (fun r => (r - m) ^ 2) v by funext acc v; ring]
      rw [foldl_add_map_eq_sum, zero_add]
    have hcast : ((xs.length - d : Nat) : ℚ) = (xs.length : ℚ) - (d : ℚ) :=
      Nat.cast_sub (le_of_lt hd)
    unfold linear_var
    rw [if_pos hd]
    simp only [linear_var_handler, foldl_add_eq_sum, zero_add, h2, hcast]
  · intro hd
    unfold linear_var
    rw [if_neg (by omega)]

/-- Witness for `var_ddof` at `xs = [1, 2, 3, 6]`: with `d = 1` the variance
is `Σ(xᵢ - 3)² / 3 = 14/3`, and `d = 4` is rejected. -/
theorem var_ddof_witness :
    ((1 < ([1, 2, 3, 6] : List ℚ).length →
        linear_var [1, 2, 3, 6] 1 =
          .ok ((([1, 2, 3, 6] : List ℚ).map
              fun r => (r - ([1, 2, 3, 6] : List ℚ).sum / (([1, 2, 3, 6] : List ℚ).length : ℚ)) ^ 2).sum
            / ((([1, 2, 3, 6] : List ℚ).length : ℚ) - (1 : ℚ)))) ∧
      (([1, 2, 3, 6] : List ℚ).length ≤ 1 → linear_var [1, 2, 3, 6] 1 = .error "bad ddof")) ∧
    (([1, 2, 3, 6] : List ℚ).length ≤ 4 → linear_var [1, 2, 3, 6] 4 = .error "bad ddof") :=
  ⟨var_ddof [1, 2, 3, 6] 1, (var_ddof [1, 2, 3, 6] 4).2⟩

/-- **C8.** Factorization-based operations map the external library's status
to results as follows: status `0` reports success (`true`, or the determinant
computed from the LU factor); a positive status (singular at machine
precision) yields the normal values `false` / `0.0` without raising; a
negative status raises "internal error". -/
theorem lapack_status_handling (r r1 r2 : Int) (n : Nat) (lu : Nat → ℚ) (ipiv : Nat → Int) :
    (r = 0 → linear_gesv_status r = .ok true ∧
      linear_det_status n r lu ipiv = .ok (detFromLU n lu ipiv)) ∧
    (r1 = 0 → r2 = 0 → linear_inv_status r1 r2 = .ok true) ∧
    (0 < r → linear_gesv_status r = .ok false ∧ linear_det_status n r lu ipiv = .ok 0) ∧
    (0 < r1 → linear_inv_status r1 r2 = .ok false) ∧
    (r1 = 0 → 0 < r2 → linear_inv_status r1 r2 = .ok false) ∧
    (r < 0 → linear_gesv_status r = .error "internal error" ∧
      linear_det_status n r lu ipiv = .error "internal error") ∧
    (r1 < 0 → linear_inv_status r1 r2 = .error "internal error") ∧
    (r1 = 0 → r2 < 0 → linear_inv_status r1 r2 = .error "internal error") := by
  refine ⟨?_, ?_, ?_, ?_, ?_, ?_, ?_, ?_⟩
  · intro hr
    subst hr
    constructor
    · unfold linear_gesv_status
      rw [if_neg (by omega)]
      simp
    · unfold linear_det_status
      rw [if_neg (by omega)]
  · intro h1 h2
    subst h1; subst h2
    unfold linear_inv_status
    rw [if_neg (by omega), if_neg (by omega)]
    simp
  · intro hr
    constructor
    · unfold linear_gesv_status
      rw [if_neg (by omega)]
      simp
      omega
    · unfold linear_det_status
      rw [if_pos (by omega), if_neg (by omega)]
  · intro h1
    unfold linear_inv_status
    rw [if_pos (by omega), if_neg (by omega)]
  · intro h1 h2
    subst h1
    unfold linear_inv_status
    rw [if_neg (by omega), if_neg (by omega)]
    simp
    omega
  · intro hr
    constructor
    · unfold linear_gesv_status
      rw [if_pos (by omega)]
    · unfold linear_det_status
      rw [if_pos (by omega), if_pos (by omega)]
  · intro h1
    unfold linear_inv_status
    rw [if_pos (by omega), if_pos (by omega)]
  · intro h1 h2
    subst h1
    unfold linear_inv_status
    rw [if_neg (by omega), if_pos (by omega)]

/-- Witness for `lapack_status_handling`: the positive-status (singular) case
at status `2` returns normal values, not errors. -/
theorem lapack_status_handling_witness :
    (0 : Int) < 2 ∧
      (linear_gesv_status 2 = .ok false ∧
        linear_det_status 3 2 (fun _ => 0) (fun _ => 0) = .ok 0) :=
  ⟨by decide,
    (lapack_status_handling 2 2 2 3 (fun _ => 0) (fun _ => 0)).2.2.1 (by decide)⟩

/-! ### Refcount lemmas -/

theorem runRefOps_append (l1 l2 : List RefOp) (s : DataState) :
    runRefOps (l1 ++ l2) s = runRefOps l2 (runRefOps l1 s) := by
  unfold runRefOps
  exact List.foldl_append refStep s l1 l2

theorem runRefOps_derives (k : Nat) (s : DataState) :
    runRefOps (List.replicate k .derive) s = { s with refs := s.refs + k } := by
  induction k generalizing s with
  | zero => simp [runRefOps]
  | succ k ih =>
    rw [List.replicate_succ]
    show runRefOps (List.replicate k .derive) (refStep s .derive) = _
    rw [ih]
    show ({ refs := s.refs + 1 + k, freed := s.freed, store := s.store } : DataState) = _
    congr 1
    omega

theorem runRefOps_destroys (j : Nat) :
    ∀ m : Nat, j < m → ∀ b : Buf,
      runRefOps (List.replicate j .destroy) ⟨m, false, b⟩ = ⟨m - j, false, b⟩ := by
  induction j with
  | zero => intro m _ b; simp [runRefOps]
  | succ j ih =>
    intro m hm b
    rw [List.replicate_succ]
    show runRefOps (List.replicate j .destroy) (refStep ⟨m, false, b⟩ .destroy) = _
    have hstep : refStep ⟨m, false, b⟩ .destroy = ⟨m - 1, false, b⟩ := by
      have hne : (m - 1 == 0) = false := by
        rw [beq_eq_false_iff_ne]
        omega
      show (⟨m - 1, false || (m - 1 == 0), b⟩ : DataState) = _
      rw [hne, Bool.or_false]
    rw [hstep, ih (m - 1) (by omega) b]
    congr 1
    omega

/-- **C9.** The reference count of a data block equals the number of live
views referring to it: a constructor starts at 1 (the owning view), each of
`k` derived views adds exactly 1, each destruction subtracts exactly 1, and
after destroying `j ≤ k` of the views the count is `1 + k - j` with the
block alive and its stored values intact (the surviving views still read and
write the same storage); destroying the last view (`j = k`, then one more
destruction) drops the count to 0 and frees the block exactly then. -/
theorem refcount_invariant (b : Buf) (k j : Nat) (hj : j ≤ k) :
    (runRefOps (List.replicate k .derive ++ List.replicate j .destroy) (createData b)).refs
        = 1 + k - j ∧
    (runRefOps (List.replicate k .derive ++ List.replicate j .destroy) (createData b)).freed
        = false ∧
    (runRefOps (List.replicate k .derive ++ List.replicate j .destroy) (createData b)).store
        = b ∧
    (j = k →
      (refStep (runRefOps (List.replicate k .derive ++ List.replicate j .destroy)
        (createData b)) .destroy).refs = 0 ∧
      (refStep (runRefOps (List.replicate k .derive ++ List.replicate j .destroy)
        (createData b)) .destroy).freed = true) := by
  have hderiv : runRefOps (List.replicate k .derive) (createData b) = ⟨1 + k, false, b⟩ := by
    rw [runRefOps_derives]
    rfl
  have hall : runRefOps (List.replicate k .derive ++ List.replicate j .destroy) (createData b)
      = ⟨1 + k - j, false, b⟩ := by
    rw [runRefOps_append, hderiv, runRefOps_destroys j (1 + k) (by omega) b]
  rw [hall]
  refine ⟨rfl, rfl, rfl, ?_⟩
  intro hjk
  have h1 : 1 + k - j = 1 := by omega
  rw [h1]
  constructor <;> simp [refStep]

/-- Witness for `refcount_invariant` at `k = 3` derived views, `j = 3`
destroyed. -/
theorem refcount_invariant_witness :
    3 ≤ 3 ∧
      ((runRefOps (List.replicate 3 .derive ++ List.replicate 3 .destroy)
          (createData fun _ => 0)).refs = 1 + 3 - 3 ∧
        (runRefOps (List.replicate 3 .derive ++ List.replicate 3 .destroy)
          (createData fun _ => 0)).freed = false ∧
        (runRefOps (List.replicate 3 .derive ++ List.replicate 3 .destroy)
          (createData fun _ => 0)).store = (fun _ => 0) ∧
        (3 = 3 →
          (refStep (runRefOps (List.replicate 3 .derive ++ List.replicate 3 .destroy)
            (createData fun _ => 0)) .destroy).refs = 0 ∧
          (refStep (runRefOps (List.replicate 3 .derive ++ List.replicate 3 .destroy)
            (createData fun _ => 0)) .destroy).freed = true)) :=
  ⟨by decide, refcount_invariant (fun _ => 0) 3 3 (by decide)⟩

/-! ### Unwind / reshape: when do they succeed? -/

/-- Element count of one matrix argument (`X->rows * X->cols`). -/
def matSize (m : MatBuf) : Nat := m.1.rows * m.1.cols

theorem unwindRun_nil (x : Vec) (bx : Buf) (w : Nat) :
    unwindRun x [] bx w =
      if w < x.length then (some "matrix expected, got no value", bx) else (none, bx) := by
  rw [unwindRun]

theorem unwindRun_cons (x : Vec) (X : Mat) (bX : Buf) (rest : List MatBuf) (bx : Buf) (w : Nat) :
    unwindRun x ((X, bX) :: rest) bx w =
      if w < x.length then
        if w + X.rows * X.cols ≤ x.length then
          unwindRun x rest
            (writeCells bx (vecAddrs x w (X.rows * X.cols)) (readCells bX (matAddrs X)))
            (w + X.rows * X.cols)
        else (some "matrix too large", bx)
      else (none, bx) := by
  rw [unwindRun]

theorem reshapeRun_nil (x : Vec) (bx : Buf) (w : Nat) :
    reshapeRun x bx [] w =
      if w < x.length then (some "matrix expected, got no value", []) else (none, []) := by
  rw [reshapeRun]

theorem reshapeRun_cons_fst (x : Vec) (bx : Buf) (X : Mat) (bX : Buf) (rest : List MatBuf)
    (w : Nat) :
    (reshapeRun x bx ((X, bX) :: rest) w).fst =
      if w < x.length then
        if w + X.rows * X.cols ≤ x.length then
          (reshapeRun x bx rest (w + X.rows * X.cols)).fst
        else some "matrix too large"
      else none := by
  rw [reshapeRun]
  by_cases hlt : w < x.length
  · rw [if_pos hlt, if_pos hlt]
    by_cases hfit : w + X.rows * X.cols ≤ x.length
    · rw [if_pos hfit, if_pos hfit]
    · rw [if_neg hfit, if_neg hfit]
  · rw [if_neg hlt, if_neg hlt]

theorem reshapeRun_cons_fit (x : Vec) (bx : Buf) (X : Mat) (bX : Buf) (rest : List MatBuf)
    (w : Nat) (hlt : w < x.length) (hfit : w + X.rows * X.cols ≤ x.length) :
    reshapeRun x bx ((X, bX) :: rest) w =
      ((reshapeRun x bx rest (w + X.rows * X.cols)).fst,
        (X, writeCells bX (matAddrs X) (readCells bx (vecAddrs x w (X.rows * X.cols)))) ::
          (reshapeRun x bx rest (w + X.rows * X.cols)).snd) := by
  rw [reshapeRun, if_pos hlt]
  show (if w + X.rows * X.cols ≤ x.length then
      ((reshapeRun x bx rest (w + X.rows * X.cols)).fst,
        (X, writeCells bX (matAddrs X) (readCells bx (vecAddrs x w (X.rows * X.cols)))) ::
          (reshapeRun x bx rest (w + X.rows * X.cols)).snd)
    else (some "matrix too large", (X, bX) :: rest)) = _
  rw [if_pos hfit]

theorem unwindRun_fst_none_iff (x : Vec) (ms : List MatBuf) :
    ∀ bx w, w ≤ x.length →
      ((unwindRun x ms bx w).fst = none ↔
        ∃ k, w + ((ms.take k).map matSize).sum = x.length) := by
  induction ms with
  | nil =>
    intro bx w hw
    rw [unwindRun_nil]
    by_cases hlt : w < x.length
    · rw [if_pos hlt]
      constructor
      · intro h; simp at h
      · rintro ⟨k, hk⟩
        exfalso
        simp at hk
        omega
    · rw [if_neg hlt]
      constructor
      · intro _
        refine ⟨0, ?_⟩
        simp
        omega
      · intro _; rfl
  | cons m rest ih =>
    intro bx w hw
    obtain ⟨X, bX⟩ := m
    rw [unwindRun_cons]
    by_cases hlt : w < x.length
    · rw [if_pos hlt]
      by_cases hfit : w + X.rows * X.cols ≤ x.length
      · rw [if_pos hfit, ih _ _ hfit]
        constructor
        · rintro ⟨k, hk⟩
          refine ⟨k + 1, ?_⟩
          rw [List.take_succ_cons, List.map_cons, List.sum_cons]
          simp only [matSize]
          omega
        · rintro ⟨k, hk⟩
          match k with
          | 0 =>
            exfalso
            simp at hk
            omega
          | k + 1 =>
            refine ⟨k, ?_⟩
            rw [List.take_succ_cons, List.map_cons, List.sum_cons] at hk
            simp only [matSize] at hk
            omega
      · rw [if_neg hfit]
        constructor
        · intro h; simp at h
        · rintro ⟨k, hk⟩
          exfalso
          match k with
          | 0 =>
            simp at hk
            omega
          | k + 1 =>
            rw [List.take_succ_cons, List.map_cons, List.sum_cons] at hk
            simp only [matSize] at hk
            omega
    · rw [if_neg hlt]
      constructor
      · intro _
        refine ⟨0, ?_⟩
        simp
        omega
      · intro _; rfl

theorem reshapeRun_fst_none_iff (x : Vec) (bx : Buf) (ms : List MatBuf) :
    ∀ w, w ≤ x.length →
      ((reshapeRun x bx ms w).fst = none ↔
        ∃ k, w + ((ms.take k).map matSize).sum = x.length) := by
  induction ms with
  | nil =>
    intro w hw
    rw [reshapeRun_nil]
    by_cases hlt : w < x.length
    · rw [if_pos hlt]
      constructor
      · intro h; simp at h
      · rintro ⟨k, hk⟩
        exfalso
        simp at hk
        omega
    · rw [if_neg hlt]
      constructor
      · intro _
        refine ⟨0, ?_⟩
        simp
        omega
      · intro _; rfl
  | cons m rest ih =>
    intro w hw
    obtain ⟨X, bX⟩ := m
    rw [reshapeRun_cons_fst]
    by_cases hlt : w < x.length
    · rw [if_pos hlt]
      by_cases hfit : w + X.rows * X.cols ≤ x.length
      · rw [if_pos hfit, ih _ hfit]
        constructor
        · rintro ⟨k, hk⟩
          refine ⟨k + 1, ?_⟩
          rw [List.take_succ_cons, List.map_cons, List.sum_cons]
          simp only [matSize]
          omega
        · rintro ⟨k, hk⟩
          match k with
          | 0 =>
            exfalso
            simp at hk
            omega
          | k + 1 =>
            refine ⟨k, ?_⟩
            rw [List.take_succ_cons, List.map_cons, List.sum_cons] at hk
            simp only [matSize] at hk
            omega
      · rw [if_neg hfit]
        constructor
        · intro h; simp at h
        · rintro ⟨k, hk⟩
          exfalso
          match k with
          | 0 =>
            simp at hk
            omega
          | k + 1 =>
            rw [List.take_succ_cons, List.map_cons, List.sum_cons] at hk
            simp only [matSize] at hk
            omega
    · rw [if_neg hlt]
      constructor
      · intro _
        refine ⟨0, ?_⟩
        simp
        omega
      · intro _; rfl

/-- **C2 (corrected).** `unwind`/`reshape` do not validate the total element
count up front: each matrix is checked against the remaining vector capacity
only when the copy loop reaches it.  The call succeeds exactly when some
prefix of the matrix arguments has total element count equal to the vector
length — matrices after that point are ignored, and a total that can only
overshoot or undershoot raises an argument error at the offending position,
after the elements of the earlier matrices have already been copied. -/
theorem unwind_reshape_success_iff_prefix (x : Vec) (bdst bx : Buf) (ms : List MatBuf) :
    ((unwindRun x ms bdst 0).fst = none ↔
      ∃ k, ((ms.take k).map matSize).sum = x.length) ∧
    ((reshapeRun x bx ms 0).fst = none ↔
      ∃ k, ((ms.take k).map matSize).sum = x.length) := by
  constructor
  · simpa using unwindRun_fst_none_iff x ms bdst 0 (Nat.zero_le _)
  · simpa using reshapeRun_fst_none_iff x bx ms 0 (Nat.zero_le _)

/-- **C2 (counterexample).** One undersized 1×1 matrix holding `7` against a
vector of length 2: `unwind` raises an argument error only after the
matrix's element has already been written into the destination (cell 0 went
from `0` to `7`), so the failure is neither up front nor free of partial
writes. -/
theorem unwind_partial_write_on_failure :
    (unwindRun ⟨0, 2, 1⟩ [(⟨0, 1, 1, 1, true⟩, fun _ => 7)] (fun _ => 0) 0).fst
        = some "matrix expected, got no value" ∧
    (unwindRun ⟨0, 2, 1⟩ [(⟨0, 1, 1, 1, true⟩, fun _ => 7)] (fun _ => 0) 0).snd 0 = 7 ∧
    ((fun _ => (0 : ℚ)) 0 : ℚ) ≠ 7 := by
  refine ⟨rfl, ?_, by norm_num⟩
  show writeCells (fun _ => 0) (vecAddrs ⟨0, 2, 1⟩ 0 (1 * 1))
      (readCells (fun _ => 7) (matAddrs ⟨0, 1, 1, 1, true⟩)) 0 = 7
  rfl

/-! ### Sequential copy lemmas -/

theorem writeCells_not_mem : ∀ (addrs : List Nat) (vals : List ℚ) (b : Buf) (a : Nat),
    a ∉ addrs → writeCells b addrs vals a = b a := by
  intro addrs
  induction addrs with
  | nil => intro vals b a _; cases vals <;> rfl
  | cons a' as ih =>
    intro vals b a ha
    cases vals with
    | nil => rfl
    | cons v vs =>
      have ha1 : a ≠ a' := fun h => ha (h ▸ List.mem_cons_self a' as)
      have ha2 : a ∉ as := fun h => ha (List.mem_cons_of_mem _ h)
      show writeCells (Function.update b a' v) as vs a = b a
      rw [ih vs _ a ha2, Function.update_noteq ha1]

theorem writeCells_get : ∀ (addrs : List Nat) (vals : List ℚ) (b : Buf) (k : Nat)
    (hk : k < addrs.length) (hkv : k < vals.length), addrs.Nodup →
    writeCells b addrs vals (addrs.get ⟨k, hk⟩) = vals.get ⟨k, hkv⟩ := by
  intro addrs
  induction addrs with
  | nil => intro vals b k hk _ _; exact absurd hk (by simp)
  | cons a as ih =>
    intro vals b k hk hkv hnd
    cases vals with
    | nil => exact absurd hkv (by simp)
    | cons v vs =>
      match k with
      | 0 =>
        show writeCells (Function.update b a v) as vs a = v
        rw [writeCells_not_mem as vs _ a (List.nodup_cons.mp hnd).1, Function.update_same]
      | k + 1 =>
        show writeCells (Function.update b a v) as vs (as.get ⟨k, _⟩) = vs.get ⟨k, _⟩
        exact ih vs _ k _ (by simpa using hkv) (List.nodup_cons.mp hnd).2

theorem readCells_writeCells : ∀ (addrs : List Nat) (vals : List ℚ) (b : Buf),
    addrs.Nodup → vals.length = addrs.length →
    readCells (writeCells b addrs vals) addrs = vals := by
  intro addrs
  induction addrs with
  | nil =>
    intro vals b _ hl
    have : vals = [] := List.length_eq_zero.mp (by simpa using hl)
    simp [this, readCells]
  | cons a as ih =>
    intro vals b hnd hl
    cases vals with
    | nil => exact absurd hl (by simp)
    | cons v vs =>
      show readCells (writeCells (Function.update b a v) as vs) (a :: as) = v :: vs
      unfold readCells
      rw [List.map_cons]
      have h1 : writeCells (Function.update b a v) as vs a = v := by
        rw [writeCells_not_mem as vs _ a (List.nodup_cons.mp hnd).1, Function.update_same]
      rw [h1]
      have h2 := ih vs (Function.update b a v) (List.nodup_cons.mp hnd).2 (by simpa using hl)
      unfold readCells at h2
      rw [h2]

/-! ### Address-list facts -/

theorem vecAddrs_length (v : Vec) (w n : Nat) : (vecAddrs v w n).length = n := by
  simp [vecAddrs]

theorem readCells_length (b : Buf) (addrs : List Nat) :
    (readCells b addrs).length = addrs.length := by
  simp [readCells]

theorem matAddrs_length (X : Mat) : (matAddrs X).length = X.rows * X.cols := by
  unfold matAddrs
  rw [List.length_flatMap]
  have h1 : ∀ i : Nat,
      ((List.range X.minor).map fun j => X.off + i * X.ld + j).length = X.minor := by
    intro i; simp
  calc ((List.range X.major).map fun i =>
          ((List.range X.minor).map fun j => X.off + i * X.ld + j).length).sum
      = ((List.range X.major).map fun _ => X.minor).sum := by
        congr 1
        exact List.map_congr_left fun i _ => h1 i
    _ = X.major * X.minor := by
        rw [List.map_const']
        simp [List.sum_replicate, smul_eq_mul]
    _ = X.rows * X.cols := by
        unfold Mat.major Mat.minor
        rcases X.rowmajor with _ | _ <;> simp [Nat.mul_comm]

theorem matAddrs_nodup (X : Mat) (h : X.minor ≤ X.ld) : (matAddrs X).Nodup := by
  unfold matAddrs
  rw [List.nodup_flatMap]
  constructor
  · intro i _
    refine List.Nodup.map ?_ (List.nodup_range _)
    intro j k hjk
    have h' : X.off + i * X.ld + j = X.off + i * X.ld + k := hjk
    omega
  · refine (List.pairwise_lt_range _).imp ?_
    intro i i' hii
    intro a hai hai'
    simp only [List.mem_map, List.mem_range] at hai hai'
    obtain ⟨j, hj, rfl⟩ := hai
    obtain ⟨j', hj', he⟩ := hai'
    have h1 : i * X.ld + X.minor ≤ i' * X.ld := by
      calc i * X.ld + X.minor ≤ i * X.ld + X.ld := by omega
        _ = (i + 1) * X.ld := by ring
        _ ≤ i' * X.ld := Nat.mul_le_mul_right _ (by omega)
    omega

theorem vecAddrs_nodup (v : Vec) (w n : Nat) (hinc : 1 ≤ v.inc) :
    (vecAddrs v w n).Nodup := by
  unfold vecAddrs
  refine List.Nodup.map ?_ (List.nodup_range _)
  intro j k hjk
  have h' : v.off + (w + j) * v.inc = v.off + (w + k) * v.inc := hjk
  have h'' : (w + j) * v.inc = (w + k) * v.inc := by omega
  have := Nat.eq_of_mul_eq_mul_right (show 0 < v.inc by omega) h''
  omega

theorem vecAddrs_get (v : Vec) (w n k : Nat) (hk : k < n) :
    (vecAddrs v w n).get ⟨k, by rw [vecAddrs_length]; exact hk⟩ = v.off + (w + k) * v.inc := by
  simp [vecAddrs]

theorem readCells_get (b : Buf) (addrs : List Nat) (k : Nat) (hk : k < addrs.length) :
    (readCells b addrs).get ⟨k, by rw [readCells_length]; exact hk⟩ = b (addrs.get ⟨k, hk⟩) := by
  simp [readCells]

theorem not_mem_vecAddrs_unit (L w n a : Nat) (ha : a < w) :
    a ∉ vecAddrs ⟨0, L, 1⟩ w n := by
  unfold vecAddrs
  intro hmem
  obtain ⟨k, _, he⟩ := List.mem_map.mp hmem
  have he' : 0 + (w + k) * 1 = a := he
  omega

theorem writeCells_append (as : List Nat) : ∀ (vs : List ℚ) (as' : List Nat) (vs' : List ℚ)
    (b : Buf), vs.length = as.length →
    writeCells b (as ++ as') (vs ++ vs') = writeCells (writeCells b as vs) as' vs' := by
  induction as with
  | nil =>
    intro vs as' vs' b hl
    have : vs = [] := List.length_eq_zero.mp (by simpa using hl)
    subst this
    rfl
  | cons a as ih =>
    intro vs as' vs' b hl
    cases vs with
    | nil => exact absurd hl (by simp)
    | cons v vs0 =>
      show writeCells (Function.update b a v) (as ++ as') (vs0 ++ vs') = _
      rw [ih vs0 as' vs' (Function.update b a v) (by simpa using hl)]
      rfl

theorem writeCells_unit_dest (L w : Nat) : ∀ (sz : Nat) (by0 : Buf) (g : Nat → ℚ) (k : Nat),
    k < sz →
    writeCells by0 (vecAddrs ⟨0, L, 1⟩ w sz) ((List.range sz).map g) (w + k) = g k := by
  intro sz
  induction sz with
  | zero => intro by0 g k hk; exact absurd hk (by omega)
  | succ n ih =>
    intro by0 g k hk
    have hsplit : vecAddrs ⟨0, L, 1⟩ w (n + 1)
        = vecAddrs ⟨0, L, 1⟩ w n ++ [0 + (w + n) * 1] := by
      unfold vecAddrs
      rw [List.range_succ, List.map_append]
      rfl
    have hsplit2 : (List.range (n + 1)).map g = (List.range n).map g ++ [g n] := by
      rw [List.range_succ, List.map_append]
      rfl
    rw [hsplit, hsplit2,
      writeCells_append _ _ _ _ _ (by simp [vecAddrs])]
    show Function.update (writeCells by0 (vecAddrs ⟨0, L, 1⟩ w n) ((List.range n).map g))
        (0 + (w + n) * 1) (g n) (w + k) = g k
    rcases Nat.lt_or_ge k n with hkn | hkn
    · rw [Function.update_noteq (by omega)]
      exact ih by0 g k hkn
    · have hkeq : k = n := by omega
      subst hkeq
      have h1 : 0 + (w + k) * 1 = w + k := by omega
      rw [h1, Function.update_same]

theorem roundtrip_aux (x : Vec) (bx : Buf) :
    ∀ (ms : List MatBuf) (w : Nat) (by0 : Buf),
      (∀ m ∈ ms, m.1.minor ≤ m.1.ld ∧ 1 ≤ m.1.rows ∧ 1 ≤ m.1.cols) →
      w + (ms.map matSize).sum = x.length →
      (reshapeRun x bx ms w).fst = none ∧
      (unwindRun ⟨0, x.length, 1⟩ (reshapeRun x bx ms w).snd by0 w).fst = none ∧
      (∀ a, a < w →
        (unwindRun ⟨0, x.length, 1⟩ (reshapeRun x bx ms w).snd by0 w).snd a = by0 a) ∧
      (∀ a, w ≤ a → a < x.length →
        (unwindRun ⟨0, x.length, 1⟩ (reshapeRun x bx ms w).snd by0 w).snd a
          = bx (x.off + a * x.inc)) := by
  intro ms
  induction ms with
  | nil =>
    intro w by0 _ hw
    have hwl : w = x.length := by simpa using hw
    have hnl : ¬ w < x.length := by omega
    have hre1 : (reshapeRun x bx [] w).fst = none := by
      rw [reshapeRun_nil, if_neg hnl]
    have hre2 : (reshapeRun x bx [] w).snd = [] := by
      rw [reshapeRun_nil, if_neg hnl]
    have hun : unwindRun ⟨0, x.length, 1⟩ [] by0 w = (none, by0) := by
      rw [unwindRun_nil, if_neg hnl]
    rw [hre2, hun]
    exact ⟨hre1, rfl, fun a _ => rfl, fun a ha1 ha2 => absurd ha2 (by omega)⟩
  | cons m rest ih =>
    intro w by0 hwf hw
    obtain ⟨X, bX⟩ := m
    have hX := hwf (X, bX) (List.mem_cons_self _ _)
    have hsz : 1 ≤ X.rows * X.cols := Nat.mul_pos hX.2.1 hX.2.2
    have hw' : w + (X.rows * X.cols + (rest.map matSize).sum) = x.length := by
      simpa [matSize] using hw
    have hlt : w < x.length := by omega
    have hfit : w + X.rows * X.cols ≤ x.length := by omega
    set BX' := writeCells bX (matAddrs X) (readCells bx (vecAddrs x w (X.rows * X.cols)))
      with hBX
    set BY' := writeCells by0 (vecAddrs ⟨0, x.length, 1⟩ w (X.rows * X.cols))
      (readCells BX' (matAddrs X)) with hBY
    set R := reshapeRun x bx rest (w + X.rows * X.cols) with hRdef
    have hre : reshapeRun x bx ((X, bX) :: rest) w = (R.fst, (X, BX') :: R.snd) :=
      reshapeRun_cons_fit x bx X bX rest w hlt hfit
    have hwrest : (w + X.rows * X.cols) + (rest.map matSize).sum = x.length := by omega
    obtain ⟨hres1, hres2, hres3, hres4⟩ :=
      ih (w + X.rows * X.cols) BY' (fun m hm => hwf m (List.mem_cons_of_mem _ hm)) hwrest
    rw [hre]
    have hun : unwindRun ⟨0, x.length, 1⟩ ((X, BX') :: R.snd) by0 w
        = unwindRun ⟨0, x.length, 1⟩ R.snd BY' (w + X.rows * X.cols) := by
      rw [unwindRun_cons]
      rw [if_pos (show w < Vec.length ⟨0, x.length, 1⟩ from hlt),
        if_pos (show w + X.rows * X.cols ≤ Vec.length ⟨0, x.length, 1⟩ from hfit)]
    refine ⟨hres1, ?_, ?_, ?_⟩
    · show (unwindRun ⟨0, x.length, 1⟩ ((X, BX') :: R.snd) by0 w).fst = none
      rw [hun]
      exact hres2
    · intro a ha
      show (unwindRun ⟨0, x.length, 1⟩ ((X, BX') :: R.snd) by0 w).snd a = by0 a
      rw [hun, hres3 a (by omega)]
      rw [hBY]
      exact writeCells_not_mem _ _ _ _ (not_mem_vecAddrs_unit x.length w _ a ha)
    · intro a ha1 ha2
      show (unwindRun ⟨0, x.length, 1⟩ ((X, BX') :: R.snd) by0 w).snd a
          = bx (x.off + a * x.inc)
      rw [hun]
      rcases Nat.lt_or_ge a (w + X.rows * X.cols) with hc | hc
      · rw [hres3 a hc]
        have hk : a - w < X.rows * X.cols := by omega
        have hwk : w + (a - w) = a := by omega
        have hvals : readCells BX' (matAddrs X)
            = readCells bx (vecAddrs x w (X.rows * X.cols)) := by
          rw [hBX]
          exact readCells_writeCells (matAddrs X) _ bX (matAddrs_nodup X hX.1)
            (by rw [readCells_length, vecAddrs_length, matAddrs_length])
        have hvals2 : readCells bx (vecAddrs x w (X.rows * X.cols))
            = (List.range (X.rows * X.cols)).map
                (fun k => bx (x.off + (w + k) * x.inc)) := by
          unfold readCells vecAddrs
          rw [List.map_map]
          rfl
        rw [hBY, hvals, hvals2]
        have happ := writeCells_unit_dest x.length w (X.rows * X.cols) by0
          (fun k => bx (x.off + (w + k) * x.inc)) (a - w) hk
        rw [hwk] at happ
        rw [happ]
        show bx (x.off + (w + (a - w)) * x.inc) = bx (x.off + a * x.inc)
        rw [hwk]
      · exact hres4 a hc ha2

/-- **C3.** Pack/unpack round trip: when the total element count of the
matrices equals the vector length (and each matrix satisfies the view
invariants `minor ≤ ld`, `rows, cols ≥ 1`), `reshape(x, M₁, …, Mₖ)` succeeds
distributing `x`'s elements into the matrices in traversal order, and a
subsequent `unwind(M₁, …, Mₖ, y)` into a fresh vector `y` of the same length
succeeds and reproduces the original element values of `x` exactly,
whatever `y`'s buffer held before. -/
theorem reshape_unwind_roundtrip (x : Vec) (bx : Buf) (ms : List MatBuf) (by0 : Buf)
    (hwf : ∀ m ∈ ms, m.1.minor ≤ m.1.ld ∧ 1 ≤ m.1.rows ∧ 1 ≤ m.1.cols)
    (htot : (ms.map matSize).sum = x.length) :
    (reshapeRun x bx ms 0).fst = none ∧
    (unwindRun ⟨0, x.length, 1⟩ (reshapeRun x bx ms 0).snd by0 0).fst = none ∧
    ∀ i, 1 ≤ i → i ≤ x.length →
      vector_index (unwindRun ⟨0, x.length, 1⟩ (reshapeRun x bx ms 0).snd by0 0).snd
          ⟨0, x.length, 1⟩ i
        = vector_index bx x i := by
  obtain ⟨h1, h2, _, h4⟩ := roundtrip_aux x bx ms 0 by0 hwf (by simpa using htot)
  refine ⟨h1, h2, ?_⟩
  intro i hi1 hi2
  rw [vector_index_pos _ _ _ (⟨hi1, hi2⟩ : 1 ≤ i ∧ i ≤ Vec.length ⟨0, x.length, 1⟩),
    vector_index_pos _ _ _ (⟨hi1, hi2⟩ : 1 ≤ i ∧ i ≤ x.length)]
  show some ((unwindRun ⟨0, x.length, 1⟩ (reshapeRun x bx ms 0).snd by0 0).snd
      (0 + (i - 1) * 1)) = some (bx (x.off + (i - 1) * x.inc))
  have hi0 : 0 + (i - 1) * 1 = i - 1 := by omega
  rw [hi0, h4 (i - 1) (by omega) (by omega)]

/-- Witness for `reshape_unwind_roundtrip`: `x = (0, 1, 2, 3)` distributed
into a 1×2 row-major and a 2×1 column-major matrix and packed back. -/
theorem reshape_unwind_roundtrip_witness :
    (∀ m ∈ [((⟨0, 1, 2, 2, true⟩ : Mat), (fun _ => (0 : ℚ) : Buf)),
            ((⟨0, 2, 1, 2, false⟩ : Mat), (fun _ => (0 : ℚ) : Buf))],
      m.1.minor ≤ m.1.ld ∧ 1 ≤ m.1.rows ∧ 1 ≤ m.1.cols) ∧
    (([((⟨0, 1, 2, 2, true⟩ : Mat), (fun _ => (0 : ℚ) : Buf)),
       ((⟨0, 2, 1, 2, false⟩ : Mat), (fun _ => (0 : ℚ) : Buf))].map matSize).sum
      = (⟨0, 4, 1⟩ : Vec).length) ∧
    ((reshapeRun ⟨0, 4, 1⟩ (fun a => (a : ℚ))
        [((⟨0, 1, 2, 2, true⟩ : Mat), (fun _ => (0 : ℚ) : Buf)),
         ((⟨0, 2, 1, 2, false⟩ : Mat), (fun _ => (0 : ℚ) : Buf))] 0).fst = none ∧
      (unwindRun ⟨0, (⟨0, 4, 1⟩ : Vec).length, 1⟩
          (reshapeRun ⟨0, 4, 1⟩ (fun a => (a : ℚ))
            [((⟨0, 1, 2, 2, true⟩ : Mat), (fun _ => (0 : ℚ) : Buf)),
             ((⟨0, 2, 1, 2, false⟩ : Mat), (fun _ => (0 : ℚ) : Buf))] 0).snd
          (fun _ => 9) 0).fst = none ∧
      ∀ i, 1 ≤ i → i ≤ (⟨0, 4, 1⟩ : Vec).length →
        vector_index (unwindRun ⟨0, (⟨0, 4, 1⟩ : Vec).length, 1⟩
            (reshapeRun ⟨0, 4, 1⟩ (fun a => (a : ℚ))
              [((⟨0, 1, 2, 2, true⟩ : Mat), (fun _ => (0 : ℚ) : Buf)),
               ((⟨0, 2, 1, 2, false⟩ : Mat), (fun _ => (0 : ℚ) : Buf))] 0).snd
            (fun _ => 9) 0).snd
            ⟨0, (⟨0, 4, 1⟩ : Vec).length, 1⟩ i
          = vector_index (fun a => (a : ℚ)) ⟨0, 4, 1⟩ i) :=
  ⟨by decide, by decide,
    reshape_unwind_roundtrip ⟨0, 4, 1⟩ (fun a => (a : ℚ))
      [((⟨0, 1, 2, 2, true⟩ : Mat), (fun _ => (0 : ℚ) : Buf)),
       ((⟨0, 2, 1, 2, false⟩ : Mat), (fun _ => (0 : ℚ) : Buf))] (fun _ => 9)
      (by decide) (by decide)⟩

/-! ### Per-major-slice loop lemmas (elementary dispatch) -/

theorem rowLoop_out (g : ℚ → ℚ) (off ld minor : Nat) :
    ∀ (m : Nat) (b : Buf) (a : Nat),
      (∀ i, i < m → ¬(off + i * ld ≤ a ∧ a < off + i * ld + minor)) →
      ((List.range m).foldl (fun acc i => applyRange g acc (off + i * ld) minor) b) a
        = b a := by
  intro m
  induction m with
  | zero => intro b a _; rfl
  | succ n ih =>
    intro b a ha
    rw [List.range_succ, List.foldl_append]
    simp only [List.foldl_cons, List.foldl_nil]
    dsimp only [applyRange]
    rw [if_neg (ha n (by omega))]
    exact ih b a (fun i hi => ha i (by omega))

theorem rowLoop_in (g : ℚ → ℚ) (off ld minor : Nat) (hld : minor ≤ ld) :
    ∀ (m : Nat) (b : Buf) (i a : Nat), i < m → off + i * ld ≤ a →
      a < off + i * ld + minor →
      ((List.range m).foldl (fun acc i => applyRange g acc (off + i * ld) minor) b) a
        = g (b a) := by
  intro m
  induction m with
  | zero => intro b i a hi _ _; omega
  | succ n ih =>
    intro b i a hi ha1 ha2
    rw [List.range_succ, List.foldl_append]
    simp only [List.foldl_cons, List.foldl_nil]
    dsimp only [applyRange]
    rcases Nat.lt_or_ge i n with hin | hin
    · have hrow : (i + 1) * ld ≤ n * ld := Nat.mul_le_mul_right _ (by omega)
      have hs : (i + 1) * ld = i * ld + ld := Nat.succ_mul _ _
      rw [if_neg (by omega)]
      exact ih b i a hin ha1 ha2
    · have hieq : i = n := by omega
      subst hieq
      rw [if_pos ⟨ha1, ha2⟩]
      congr 1
      apply rowLoop_out
      intro i' hi'
      intro hcontra
      have hrow : (i' + 1) * ld ≤ i * ld := Nat.mul_le_mul_right _ (by omega)
      have hs : (i' + 1) * ld = i' * ld + ld := Nat.succ_mul _ _
      omega

/-- Pointwise effect of the `linear_elementary` matrix dispatch at a
major/minor cell `(i, j)` of the view: the kernel is applied exactly once to
that cell, no matter whether the fast contiguous path or the per-slice loop
ran. -/
theorem elementaryMat_apply (g : ℚ → ℚ) (X : Mat) (b : Buf) (hld : X.minor ≤ X.ld)
    (i j : Nat) (hi : i < X.major) (hj : j < X.minor) :
    elementaryMat g X b (X.off + i * X.ld + j) = g (b (X.off + i * X.ld + j)) := by
  unfold elementaryMat
  by_cases hf : X.minor = X.ld ∧ X.major * X.minor ≤ INTMAX
  · rw [if_pos hf]
    dsimp only [applyRange]
    rw [if_pos ?hin]
    case hin =>
      constructor
      · omega
      · have h1 : (i + 1) * X.minor ≤ X.major * X.minor :=
          Nat.mul_le_mul_right _ (by omega)
        have h2 : (i + 1) * X.minor = i * X.minor + X.minor := Nat.succ_mul _ _
        have h3 : i * X.ld = i * X.minor := by rw [hf.1]
        omega
  · rw [if_neg hf]
    exact rowLoop_in g X.off X.ld X.minor hld X.major b i (X.off + i * X.ld + j) hi
      (by omega) (by omega)

/-- Pointwise effect at a logical element `(r, c)`. -/
theorem elementaryMat_cell (g : ℚ → ℚ) (X : Mat) (b : Buf) (hld : X.minor ≤ X.ld)
    (r c : Nat) (hr : r < X.rows) (hc : c < X.cols) :
    logRead (elementaryMat g X b) X r c = g (logRead b X r c) := by
  unfold logRead Mat.cell
  rcases hR : X.rowmajor with _ | _
  · have hi : c < X.major := by simpa [Mat.major, hR] using hc
    have hj : r < X.minor := by simpa [Mat.minor, hR] using hr
    have := elementaryMat_apply g X b hld c r hi hj
    simpa [hR, Nat.add_assoc] using this
  · have hi : r < X.major := by simpa [Mat.major, hR] using hr
    have hj : c < X.minor := by simpa [Mat.minor, hR] using hc
    have := elementaryMat_apply g X b hld r c hi hj
    simpa [hR, Nat.add_assoc] using this

/-- **C5.** Order-invariance of the elementary dispatch: for a per-element
kernel `g` and two matrices holding the same logical values — one row-major,
one column-major, each possibly a sub-view (`minor ≤ ld`) — the dispatch
transforms every logical element exactly once (the new value at `(r, c)` is
`g` of the old, for arbitrary `g`), so the two results agree logically at
every position; and whenever the leading dimension equals the minor extent,
the contiguous fast path computes the very same buffer as the per-major-index
strided loop. -/
theorem elementary_order_invariance (g : ℚ → ℚ) (A B : Mat) (bA bB : Buf)
    (hA : A.rowmajor = true) (hB : B.rowmajor = false)
    (hldA : A.minor ≤ A.ld) (hldB : B.minor ≤ B.ld)
    (hrows : B.rows = A.rows) (hcols : B.cols = A.cols)
    (heq : ∀ r, r < A.rows → ∀ c, c < A.cols → logRead bA A r c = logRead bB B r c) :
    (∀ r, r < A.rows → ∀ c, c < A.cols →
      logRead (elementaryMat g A bA) A r c = g (logRead bA A r c) ∧
      logRead (elementaryMat g B bB) B r c = g (logRead bB B r c) ∧
      logRead (elementaryMat g A bA) A r c = logRead (elementaryMat g B bB) B r c) ∧
    (∀ (X : Mat) (bX : Buf), 1 ≤ X.minor → X.minor = X.ld →
      elementaryMat g X bX = elementaryMatLoop g X bX) := by
  constructor
  · intro r hr c hc
    have h1 := elementaryMat_cell g A bA hldA r c hr hc
    have h2 := elementaryMat_cell g B bB hldB r c (hrows ▸ hr) (hcols ▸ hc)
    exact ⟨h1, h2, by rw [h1, h2, heq r hr c hc]⟩
  · intro X bX hmin hpack
    unfold elementaryMat elementaryMatLoop
    by_cases hbig : X.major * X.minor ≤ INTMAX
    · rw [if_pos ⟨hpack, hbig⟩]
      funext a
      dsimp only [applyRange]
      have hldX : X.ld = X.minor := hpack.symm
      by_cases hin : X.off ≤ a ∧ a < X.off + X.major * X.minor
      · rw [if_pos hin]
        have hmpos : 0 < X.minor := by omega
        have hdm := Nat.div_add_mod (a - X.off) X.minor
        have hmod : (a - X.off) % X.minor < X.minor := Nat.mod_lt _ hmpos
        have hdiv : (a - X.off) / X.minor < X.major := by
          apply Nat.div_lt_of_lt_mul
          have hcm : X.major * X.minor = X.minor * X.major := Nat.mul_comm _ _
          omega
        have hcm2 : (a - X.off) / X.minor * X.ld
            = X.minor * ((a - X.off) / X.minor) := by
          rw [hldX]
          exact Nat.mul_comm _ _
        refine (rowLoop_in g X.off X.ld X.minor (le_of_eq hpack) X.major bX
          ((a - X.off) / X.minor) a hdiv ?_ ?_).symm
        · omega
        · omega
      · rw [if_neg hin]
        refine (rowLoop_out g X.off X.ld X.minor X.major bX a ?_).symm
        intro i hi
        intro hcontra
        have h1 : (i + 1) * X.ld ≤ X.major * X.ld := Nat.mul_le_mul_right _ (by omega)
        have h2 : (i + 1) * X.ld = i * X.ld + X.ld := Nat.succ_mul _ _
        have h3 : X.major * X.ld = X.major * X.minor := by rw [hldX]
        have h4 : X.ld = X.minor := hldX
        omega
    · rw [if_neg (fun h => hbig h.2)]

/-- Witness for `elementary_order_invariance`: the same logical 2×2 values in
a row-major and a column-major layout, kernel `g q = q * q + 1`. -/
theorem elementary_order_invariance_witness :
    ((⟨0, 2, 2, 2, true⟩ : Mat).rowmajor = true) ∧
    ((⟨0, 2, 2, 2, false⟩ : Mat).rowmajor = false) ∧
    ((⟨0, 2, 2, 2, true⟩ : Mat).minor ≤ (⟨0, 2, 2, 2, true⟩ : Mat).ld) ∧
    ((⟨0, 2, 2, 2, false⟩ : Mat).minor ≤ (⟨0, 2, 2, 2, false⟩ : Mat).ld) ∧
    ((⟨0, 2, 2, 2, false⟩ : Mat).rows = (⟨0, 2, 2, 2, true⟩ : Mat).rows) ∧
    ((⟨0, 2, 2, 2, false⟩ : Mat).cols = (⟨0, 2, 2, 2, true⟩ : Mat).cols) ∧
    (∀ r, r < (⟨0, 2, 2, 2, true⟩ : Mat).rows → ∀ c, c < (⟨0, 2, 2, 2, true⟩ : Mat).cols →
      logRead (fun a => ([1, 2, 3, 4].getD a 0 : ℚ)) ⟨0, 2, 2, 2, true⟩ r c
        = logRead (fun a => ([1, 3, 2, 4].getD a 0 : ℚ)) ⟨0, 2, 2, 2, false⟩ r c) ∧
    ((∀ r, r < (⟨0, 2, 2, 2, true⟩ : Mat).rows → ∀ c, c < (⟨0, 2, 2, 2, true⟩ : Mat).cols →
      logRead (elementaryMat (fun q => q * q + 1) ⟨0, 2, 2, 2, true⟩
          (fun a => ([1, 2, 3, 4].getD a 0 : ℚ))) ⟨0, 2, 2, 2, true⟩ r c
        = (fun q => q * q + 1)
            (logRead (fun a => ([1, 2, 3, 4].getD a 0 : ℚ)) ⟨0, 2, 2, 2, true⟩ r c) ∧
      logRead (elementaryMat (fun q => q * q + 1) ⟨0, 2, 2, 2, false⟩
          (fun a => ([1, 3, 2, 4].getD a 0 : ℚ))) ⟨0, 2, 2, 2, false⟩ r c
        = (fun q => q * q + 1)
            (logRead (fun a => ([1, 3, 2, 4].getD a 0 : ℚ)) ⟨0, 2, 2, 2, false⟩ r c) ∧
      logRead (elementaryMat (fun q => q * q + 1) ⟨0, 2, 2, 2, true⟩
          (fun a => ([1, 2, 3, 4].getD a 0 : ℚ))) ⟨0, 2, 2, 2, true⟩ r c
        = logRead (elementaryMat (fun q => q * q + 1) ⟨0, 2, 2, 2, false⟩
            (fun a => ([1, 3, 2, 4].getD a 0 : ℚ))) ⟨0, 2, 2, 2, false⟩ r c) ∧
    (∀ (X : Mat) (bX : Buf), 1 ≤ X.minor → X.minor = X.ld →
      elementaryMat (fun q => q * q + 1) X bX = elementaryMatLoop (fun q => q * q + 1) X bX)) :=
  ⟨rfl, rfl, by decide, by decide, rfl, rfl, by decide,
    elementary_order_invariance (fun q => q * q + 1) ⟨0, 2, 2, 2, true⟩ ⟨0, 2, 2, 2, false⟩
      (fun a => ([1, 2, 3, 4].getD a 0 : ℚ)) (fun a => ([1, 3, 2, 4].getD a 0 : ℚ))
      rfl rfl (by decide) (by decide) rfl rfl (by decide)⟩

/-! ### Unary reductions over requested-order slices -/

theorem foldl_update_get (addr : Nat → Nat) (val : Nat → ℚ) :
    ∀ (m : Nat) (b : Buf) (i : Nat), i < m →
      (∀ t t', t < m → t' < m → addr t = addr t' → t = t') →
      ((List.range m).foldl (fun acc t => Function.update acc (addr t) (val t)) b) (addr i)
        = val i := by
  intro m
  induction m with
  | zero => intro b i hi _; omega
  | succ n ih =>
    intro b i hi hinj
    rw [List.range_succ, List.foldl_append]
    simp only [List.foldl_cons, List.foldl_nil]
    rcases Nat.lt_or_ge i n with hin | hin
    · have hne : addr i ≠ addr n := fun h => by
        have := hinj i n (by omega) (by omega) h
        omega
      rw [Function.update_noteq hne]
      exact ih b i hin (fun t t' ht ht' => hinj t t' (by omega) (by omega))
    · have hieq : i = n := by omega
      subst hieq
      rw [Function.update_same]

/-- The logical `i`-th row of a matrix, as the list of values the claim's
"i-th row of X" denotes. -/
def rowSlice (bX : Buf) (X : Mat) (i : Nat) : List ℚ :=
  (List.range X.cols).map fun c => logRead bX X i c

/-- The logical `j`-th column of a matrix. -/
def colSlice (bX : Buf) (X : Mat) (j : Nat) : List ℚ :=
  (List.range X.rows).map fun r => logRead bX X r j

theorem readStride_row_rowmajor (bX : Buf) (X : Mat) (i : Nat) (hR : X.rowmajor = true) :
    readStride bX (X.off + i * X.ld) 1 X.cols = rowSlice bX X i := by
  unfold readStride rowSlice logRead Mat.cell
  apply List.map_congr_left
  intro c _
  rw [hR]
  simp only [if_true]
  congr 1
  omega

theorem readStride_row_colmajor (bX : Buf) (X : Mat) (i : Nat) (hR : X.rowmajor = false) :
    readStride bX (X.off + i) X.ld X.cols = rowSlice bX X i := by
  unfold readStride rowSlice logRead Mat.cell
  apply List.map_congr_left
  intro c _
  rw [hR]
  simp only [Bool.false_eq_true, if_false]
  congr 1
  omega

theorem readStride_col_colmajor (bX : Buf) (X : Mat) (j : Nat) (hR : X.rowmajor = false) :
    readStride bX (X.off + j * X.ld) 1 X.rows = colSlice bX X j := by
  unfold readStride colSlice logRead Mat.cell
  apply List.map_congr_left
  intro r _
  rw [hR]
  simp only [Bool.false_eq_true, if_false]
  congr 1
  omega

theorem readStride_col_rowmajor (bX : Buf) (X : Mat) (j : Nat) (hR : X.rowmajor = true) :
    readStride bX (X.off + j) X.ld X.rows = colSlice bX X j := by
  unfold readStride colSlice logRead Mat.cell
  apply List.map_congr_left
  intro r _
  rw [hR]
  simp only [if_true]
  congr 1
  omega

/-- **C6.** `unary` on a matrix with requested order "row" requires the
output length to equal `X.rows` — otherwise the argument error "dimension
mismatch" — and on success writes `f` of the logical `i`-th row of `X` into
`y`'s `i`-th slot, whether `X` is physically row-major (contiguous walk) or
column-major (strided walk with stride `ld`); symmetrically for requested
order "col" with columns. -/
theorem unary_reduction_direction (f : List ℚ → ℚ) (X : Mat) (bX : Buf) (y : Vec)
    (byb : Buf) (hinc : 1 ≤ y.inc) :
    (y.length ≠ X.rows → unaryMat f X bX y byb true = .error "dimension mismatch") ∧
    (y.length = X.rows →
      ∃ by2, unaryMat f X bX y byb true = .ok by2 ∧
        ∀ i, i < X.rows → by2 (y.off + i * y.inc) = f (rowSlice bX X i)) ∧
    (y.length ≠ X.cols → unaryMat f X bX y byb false = .error "dimension mismatch") ∧
    (y.length = X.cols →
      ∃ by2, unaryMat f X bX y byb false = .ok by2 ∧
        ∀ j, j < X.cols → by2 (y.off + j * y.inc) = f (colSlice bX X j)) := by
  have hinj : ∀ t t', (y.off + t * y.inc) = (y.off + t' * y.inc) → t = t' := by
    intro t t' h
    have h' : t * y.inc = t' * y.inc := by omega
    exact Nat.eq_of_mul_eq_mul_right (by omega) h'
  refine ⟨?_, ?_, ?_, ?_⟩
  · intro hne
    unfold unaryMat
    rw [if_pos rfl, if_neg hne]
  · intro hey
    unfold unaryMat
    rw [if_pos rfl, if_pos hey]
    rcases hR : X.rowmajor with _ | _
    · rw [if_neg Bool.false_ne_true]
      refine ⟨_, rfl, ?_⟩
      intro i hi
      rw [foldl_update_get (fun t => y.off + t * y.inc)
        (fun t => f (readStride bX (X.off + t) X.ld X.cols)) X.rows byb i hi
        (fun t t' _ _ h => hinj t t' h)]
      rw [readStride_row_colmajor bX X i hR]
    · rw [if_pos rfl]
      refine ⟨_, rfl, ?_⟩
      intro i hi
      rw [foldl_update_get (fun t => y.off + t * y.inc)
        (fun t => f (readStride bX (X.off + t * X.ld) 1 X.cols)) X.rows byb i hi
        (fun t t' _ _ h => hinj t t' h)]
      rw [readStride_row_rowmajor bX X i hR]
  · intro hne
    unfold unaryMat
    rw [if_neg (by exact Bool.false_ne_true), if_neg hne]
  · intro hey
    unfold unaryMat
    rw [if_neg (by exact Bool.false_ne_true), if_pos hey]
    rcases hR : X.rowmajor with _ | _
    · rw [if_pos rfl]
      refine ⟨_, rfl, ?_⟩
      intro j hj
      rw [foldl_update_get (fun t => y.off + t * y.inc)
        (fun t => f (readStride bX (X.off + t * X.ld) 1 X.rows)) X.cols byb j hj
        (fun t t' _ _ h => hinj t t' h)]
      rw [readStride_col_colmajor bX X j hR]
    · rw [if_neg (by decide : ¬(true = false))]
      refine ⟨_, rfl, ?_⟩
      intro j hj
      rw [foldl_update_get (fun t => y.off + t * y.inc)
        (fun t => f (readStride bX (X.off + t) X.ld X.rows)) X.cols byb j hj
        (fun t t' _ _ h => hinj t t' h)]
      rw [readStride_col_rowmajor bX X j hR]

/-- Witness for `unary_reduction_direction`: a 2×3 row-major matrix reduced
by sum per requested row and per requested column into length-2/length-3
output vectors. -/
theorem unary_reduction_direction_witness :
    1 ≤ (⟨0, 2, 1⟩ : Vec).inc ∧
    (((⟨0, 2, 1⟩ : Vec).length ≠ (⟨0, 2, 3, 3, true⟩ : Mat).rows →
        unaryMat (fun l => l.sum) ⟨0, 2, 3, 3, true⟩
          (fun a => ([1, 2, 3, 4, 5, 6].getD a 0 : ℚ)) ⟨0, 2, 1⟩ (fun _ => 0) true
          = .error "dimension mismatch") ∧
      ((⟨0, 2, 1⟩ : Vec).length = (⟨0, 2, 3, 3, true⟩ : Mat).rows →
        ∃ by2, unaryMat (fun l => l.sum) ⟨0, 2, 3, 3, true⟩
            (fun a => ([1, 2, 3, 4, 5, 6].getD a 0 : ℚ)) ⟨0, 2, 1⟩ (fun _ => 0) true
            = .ok by2 ∧
          ∀ i, i < (⟨0, 2, 3, 3, true⟩ : Mat).rows →
            by2 ((⟨0, 2, 1⟩ : Vec).off + i * (⟨0, 2, 1⟩ : Vec).inc)
              = (fun l => l.sum)
                  (rowSlice (fun a => ([1, 2, 3, 4, 5, 6].getD a 0 : ℚ))
                    ⟨0, 2, 3, 3, true⟩ i)) ∧
      ((⟨0, 2, 1⟩ : Vec).length ≠ (⟨0, 2, 3, 3, true⟩ : Mat).cols →
        unaryMat (fun l => l.sum) ⟨0, 2, 3, 3, true⟩
          (fun a => ([1, 2, 3, 4, 5, 6].getD a 0 : ℚ)) ⟨0, 2, 1⟩ (fun _ => 0) false
          = .error "dimension mismatch") ∧
      ((⟨0, 2, 1⟩ : Vec).length = (⟨0, 2, 3, 3, true⟩ : Mat).cols →
        ∃ by2, unaryMat (fun l => l.sum) ⟨0, 2, 3, 3, true⟩
            (fun a => ([1, 2, 3, 4, 5, 6].getD a 0 : ℚ)) ⟨0, 2, 1⟩ (fun _ => 0) false
            = .ok by2 ∧
          ∀ j, j < (⟨0, 2, 3, 3, true⟩ : Mat).cols →
            by2 ((⟨0, 2, 1⟩ : Vec).off + j * (⟨0, 2, 1⟩ : Vec).inc)
              = (fun l => l.sum)
                  (colSlice (fun a => ([1, 2, 3, 4, 5, 6].getD a 0 : ℚ))
                    ⟨0, 2, 3, 3, true⟩ j))) :=
  ⟨by decide,
    unary_reduction_direction (fun l => l.sum) ⟨0, 2, 3, 3, true⟩
      (fun a => ([1, 2, 3, 4, 5, 6].getD a 0 : ℚ)) ⟨0, 2, 1⟩ (fun _ => 0) (by decide)⟩

/-! ### Binary matrix-matrix dispatch -/

theorem binLoop_out (k : ℚ → ℚ → ℚ) (bX : Buf) (offX ldX offY ldY minor : Nat) :
    ∀ (m : Nat) (bY : Buf) (a : Nat),
      (∀ i, i < m → ¬(offY + i * ldY ≤ a ∧ a < offY + i * ldY + minor)) →
      ((List.range m).foldl
          (fun acc i => applyRange2 k bX (offX + i * ldX) acc (offY + i * ldY) minor) bY) a
        = bY a := by
  intro m
  induction m with
  | zero => intro bY a _; rfl
  | succ n ih =>
    intro bY a ha
    rw [List.range_succ, List.foldl_append]
    simp only [List.foldl_cons, List.foldl_nil]
    dsimp only [applyRange2]
    rw [if_neg (ha n (by omega))]
    exact ih bY a (fun i hi => ha i (by omega))

theorem binLoop_in (k : ℚ → ℚ → ℚ) (bX : Buf) (offX ldX offY ldY minor : Nat)
    (hldY : minor ≤ ldY) :
    ∀ (m : Nat) (bY : Buf) (i a : Nat), i < m → offY + i * ldY ≤ a →
      a < offY + i * ldY + minor →
      ((List.range m).foldl
          (fun acc i => applyRange2 k bX (offX + i * ldX) acc (offY + i * ldY) minor) bY) a
        = k (bX (offX + i * ldX + (a - (offY + i * ldY)))) (bY a) := by
  intro m
  induction m with
  | zero => intro bY i a hi _ _; omega
  | succ n ih =>
    intro bY i a hi ha1 ha2
    rw [List.range_succ, List.foldl_append]
    simp only [List.foldl_cons, List.foldl_nil]
    dsimp only [applyRange2]
    rcases Nat.lt_or_ge i n with hin | hin
    · have hrow : (i + 1) * ldY ≤ n * ldY := Nat.mul_le_mul_right _ (by omega)
      have hs : (i + 1) * ldY = i * ldY + ldY := Nat.succ_mul _ _
      rw [if_neg (by omega)]
      exact ih bY i a hin ha1 ha2
    · have hieq : i = n := by omega
      subst hieq
      rw [if_pos ⟨ha1, ha2⟩]
      congr 1
      apply binLoop_out
      intro i' hi'
      intro hcontra
      have hrow : (i' + 1) * ldY ≤ i * ldY := Nat.mul_le_mul_right _ (by omega)
      have hs : (i' + 1) * ldY = i' * ldY + ldY := Nat.succ_mul _ _
      omega

/-- Pointwise effect of the matrix-matrix binary dispatch at a major/minor
cell `(i, j)`: the kernel combines the corresponding operand cells exactly
once, on either the contiguous fast path or the per-slice loop. -/
theorem binaryMM_apply (k : ℚ → ℚ → ℚ) (X Y : Mat) (bX bY : Buf)
    (hldY : Y.minor ≤ Y.ld)
    (horder : X.rowmajor = Y.rowmajor) (hrows : X.rows = Y.rows) (hcols : X.cols = Y.cols)
    (i j : Nat) (hi : i < X.major) (hj : j < X.minor) :
    (binaryMM k X bX Y bY).snd (Y.off + i * Y.ld + j)
      = k (bX (X.off + i * X.ld + j)) (bY (Y.off + i * Y.ld + j)) := by
  have hmin : Y.minor = X.minor := by
    unfold Mat.minor
    rw [horder]
    cases hYR : Y.rowmajor <;> simp [hrows, hcols]
  unfold binaryMM
  rw [if_neg (not_not_intro horder), if_neg (not_not_intro ⟨hrows, hcols⟩)]
  dsimp only
  by_cases hf : X.ld = X.minor ∧ Y.ld = Y.minor ∧ X.major * X.minor ≤ INTMAX
  · rw [if_pos hf]
    dsimp only [applyRange2]
    have e1 : i * Y.ld = i * X.minor := by rw [hf.2.1, hmin]
    have e2 : i * X.ld = i * X.minor := by rw [hf.1]
    have e3 : (i + 1) * X.minor = i * X.minor + X.minor := Nat.succ_mul _ _
    have e4 : (i + 1) * X.minor ≤ X.major * X.minor :=
      Nat.mul_le_mul_right _ (by omega)
    rw [if_pos (by constructor <;> omega)]
    have h5 : X.off + (Y.off + i * Y.ld + j - Y.off) = X.off + i * X.ld + j := by omega
    rw [h5]
  · rw [if_neg hf]
    have hld' : X.minor ≤ Y.ld := hmin ▸ hldY
    rw [binLoop_in k bX X.off X.ld Y.off Y.ld X.minor hld' X.major bY i
      (Y.off + i * Y.ld + j) hi (by omega) (by omega)]
    have h6 : Y.off + i * Y.ld + j - (Y.off + i * Y.ld) = j := by omega
    rw [h6]

/-- **C7.** Binary matrix-matrix dispatch: an order mismatch or a shape
mismatch raises the corresponding argument error with the destination operand
returned untouched (the source operand is never written by construction —
the kernel writes only its second argument); when order and shape agree the
call succeeds and the kernel is applied elementwise at every logical
`(r, c)` position, combining the source element with the destination
element. -/
theorem binary_mm_dispatch (k : ℚ → ℚ → ℚ) (X Y : Mat) (bX bY : Buf)
    (hldY : Y.minor ≤ Y.ld) :
    (X.rowmajor ≠ Y.rowmajor → binaryMM k X bX Y bY = (some "order mismatch", bY)) ∧
    (X.rowmajor = Y.rowmajor → ¬(X.rows = Y.rows ∧ X.cols = Y.cols) →
      binaryMM k X bX Y bY = (some "dimension mismatch", bY)) ∧
    (X.rowmajor = Y.rowmajor → X.rows = Y.rows → X.cols = Y.cols →
      (binaryMM k X bX Y bY).fst = none ∧
      ∀ r c, r < X.rows → c < X.cols →
        logRead (binaryMM k X bX Y bY).snd Y r c
          = k (logRead bX X r c) (logRead bY Y r c)) := by
  refine ⟨?_, ?_, ?_⟩
  · intro hne
    unfold binaryMM
    rw [if_pos hne]
  · intro horder hshape
    unfold binaryMM
    rw [if_neg (not_not_intro horder), if_pos hshape]
  · intro horder hrows hcols
    constructor
    · unfold binaryMM
      rw [if_neg (not_not_intro horder), if_neg (not_not_intro ⟨hrows, hcols⟩)]
    · intro r c hr hc
      unfold logRead Mat.cell
      rcases hYR : Y.rowmajor with _ | _
      · have hXR : X.rowmajor = false := by rw [horder, hYR]
        have hi : c < X.major := by simpa [Mat.major, hXR] using hc
        have hj : r < X.minor := by simpa [Mat.minor, hXR] using hr
        have := binaryMM_apply k X Y bX bY hldY horder hrows hcols c r hi hj
        simpa [hYR, hXR, Nat.add_assoc] using this
      · have hXR : X.rowmajor = true := by rw [horder, hYR]
        have hi : r < X.major := by simpa [Mat.major, hXR] using hr
        have hj : c < X.minor := by simpa [Mat.minor, hXR] using hc
        have := binaryMM_apply k X Y bX bY hldY horder hrows hcols r c hi hj
        simpa [hYR, hXR, Nat.add_assoc] using this

/-- Witness for `binary_mm_dispatch`: elementwise multiply of two 2×2
row-major matrices, plus the order-mismatch error against a column-major
destination. -/
theorem binary_mm_dispatch_witness :
    ((⟨0, 2, 2, 2, true⟩ : Mat).minor ≤ (⟨0, 2, 2, 2, true⟩ : Mat).ld) ∧
    (((⟨0, 2, 2, 2, true⟩ : Mat).rowmajor ≠ (⟨0, 2, 2, 2, true⟩ : Mat).rowmajor →
        binaryMM (fun p q => p * q) ⟨0, 2, 2, 2, true⟩
          (fun a => ([1, 2, 3, 4].getD a 0 : ℚ)) ⟨0, 2, 2, 2, true⟩
          (fun a => ([5, 6, 7, 8].getD a 0 : ℚ))
          = (some "order mismatch", fun a => ([5, 6, 7, 8].getD a 0 : ℚ))) ∧
      ((⟨0, 2, 2, 2, true⟩ : Mat).rowmajor = (⟨0, 2, 2, 2, true⟩ : Mat).rowmajor →
        ¬((⟨0, 2, 2, 2, true⟩ : Mat).rows = (⟨0, 2, 2, 2, true⟩ : Mat).rows ∧
          (⟨0, 2, 2, 2, true⟩ : Mat).cols = (⟨0, 2, 2, 2, true⟩ : Mat).cols) →
        binaryMM (fun p q => p * q) ⟨0, 2, 2, 2, true⟩
          (fun a => ([1, 2, 3, 4].getD a 0 : ℚ)) ⟨0, 2, 2, 2, true⟩
          (fun a => ([5, 6, 7, 8].getD a 0 : ℚ))
          = (some "dimension mismatch", fun a => ([5, 6, 7, 8].getD a 0 : ℚ))) ∧
      ((⟨0, 2, 2, 2, true⟩ : Mat).rowmajor = (⟨0, 2, 2, 2, true⟩ : Mat).rowmajor →
        (⟨0, 2, 2, 2, true⟩ : Mat).rows = (⟨0, 2, 2, 2, true⟩ : Mat).rows →
        (⟨0, 2, 2, 2, true⟩ : Mat).cols = (⟨0, 2, 2, 2, true⟩ : Mat).cols →
        (binaryMM (fun p q => p * q) ⟨0, 2, 2, 2, true⟩
            (fun a => ([1, 2, 3, 4].getD a 0 : ℚ)) ⟨0, 2, 2, 2, true⟩
            (fun a => ([5, 6, 7, 8].getD a 0 : ℚ))).fst = none ∧
        ∀ r c, r < (⟨0, 2, 2, 2, true⟩ : Mat).rows → c < (⟨0, 2, 2, 2, true⟩ : Mat).cols →
          logRead (binaryMM (fun p q => p * q) ⟨0, 2, 2, 2, true⟩
              (fun a => ([1, 2, 3, 4].getD a 0 : ℚ)) ⟨0, 2, 2, 2, true⟩
              (fun a => ([5, 6, 7, 8].getD a 0 : ℚ))).snd ⟨0, 2, 2, 2, true⟩ r c
            = (fun p q => p * q)
                (logRead (fun a => ([1, 2, 3, 4].getD a 0 : ℚ)) ⟨0, 2, 2, 2, true⟩ r c)
                (logRead (fun a => ([5, 6, 7, 8].getD a 0 : ℚ)) ⟨0, 2, 2, 2, true⟩ r c))) :=
  ⟨by decide,
    binary_mm_dispatch (fun p q => p * q) ⟨0, 2, 2, 2, true⟩ ⟨0, 2, 2, 2, true⟩
      (fun a => ([1, 2, 3, 4].getD a 0 : ℚ)) (fun a => ([5, 6, 7, 8].getD a 0 : ℚ))
      (by decide)⟩

end LuaLinear
